import Mathlib

/-!
Shallow embedding of the `growable-bitmap` crate (`src/lib.rs`): a growable
compact boolean array backed by a `Vec<u8>`.

The backing vector is modelled as a `List Nat` of words together with a `cap`
field recording the vector's reserved word count, under the spec's stated
assumption that the allocator grants exactly the requested reservation.
Words of a state reached by the crate's operations are always `< 256` (they
are `u8` in the source); the definitions are total on `Nat` and theorems that
need the bound carry it as a hypothesis.
-/

/-- The `GrowableBitMap` struct: `bits: Vec<u8>` plus the vector's reserved
capacity in words (`cap`), modelling the exact-allocation assumption. -/
structure GrowableBitMap where
  bits : List Nat
  cap : Nat
deriving Repr, DecidableEq

namespace GrowableBitMap

/-- `const BITS_IN_BYTE: usize = 8`. -/
def BITS_IN_BYTE : Nat := 8

/-- `const BITS_BY_STORAGE: usize = 8` (bits per `u8` storage word). -/
def BITS_BY_STORAGE : Nat := 8

/-- `GrowableBitMap::new`: empty, no allocation. -/
def new : GrowableBitMap := { bits := [], cap := 0 }

/-- `Vec::resize(new_len, v)`: extend with copies of `v` or truncate. -/
def resize (l : List Nat) (new_len v : Nat) : List Nat :=
  if l.length ≤ new_len then l ++ List.replicate (new_len - l.length) v
  else l.take new_len

/-- `GrowableBitMap::with_capacity(capacity)` (capacity in bits). -/
def with_capacity (capacity : Nat) : GrowableBitMap :=
  if capacity == 0 then new
  else
    let div := capacity / BITS_BY_STORAGE
    let rem := if capacity % BITS_BY_STORAGE != 0 then 1 else 0
    { bits := [], cap := div + rem }

/-- `GrowableBitMap::is_empty`. -/
def is_empty (s : GrowableBitMap) : Bool :=
  s.bits.isEmpty || s.bits.all (fun b => b == 0)

/-- `GrowableBitMap::get_bit`. -/
def get_bit (s : GrowableBitMap) (index : Nat) : Bool :=
  let bits_index := index / BITS_BY_STORAGE
  if s.bits.length ≤ bits_index then false
  else
    let elem := s.bits.getD bits_index 0
    let mask := 1 <<< (index - bits_index * BITS_IN_BYTE)
    (elem &&& mask) != 0

/-- `GrowableBitMap::set_bit`: returns the `bool` result and the new state. -/
def set_bit (s : GrowableBitMap) (index : Nat) : Bool × GrowableBitMap :=
  let bits_index := index / BITS_BY_STORAGE
  let bits :=
    if s.bits.length ≤ bits_index then resize s.bits (bits_index + 1) 0
    else s.bits
  let cap := max s.cap bits.length
  let elem := bits.getD bits_index 0
  let mask := 1 <<< (index - bits_index * BITS_IN_BYTE)
  let prev := elem &&& mask
  (prev == 0, { bits := bits.set bits_index (elem ||| mask), cap := cap })

/-- `GrowableBitMap::clear_bit`. The source computes
`prev = *elem | !mask` and returns `prev != 0`; for a `u8` word the
complement `!mask` is `mask ^^^ 255`. -/
def clear_bit (s : GrowableBitMap) (index : Nat) : Bool × GrowableBitMap :=
  let bits_index := index / BITS_BY_STORAGE
  if s.bits.length ≤ bits_index then (false, s)
  else
    let elem := s.bits.getD bits_index 0
    let mask := 1 <<< (index - bits_index * BITS_IN_BYTE)
    let prev := elem ||| (mask ^^^ 255)
    (prev != 0,
      { bits := s.bits.set bits_index (elem &&& (mask ^^^ 255)), cap := s.cap })

/-- `GrowableBitMap::clear`: `Vec::clear` empties the vector, keeping capacity. -/
def clear (s : GrowableBitMap) : GrowableBitMap :=
  { bits := [], cap := s.cap }

/-- `u8::count_ones`: the number of set bits among the 8 bits of a `u8` word. -/
def countOnesU8 (w : Nat) : Nat :=
  ((List.range 8).filter (fun k => w.testBit k)).length

/-- `GrowableBitMap::count_ones`: sum of per-word population counts. -/
def count_ones (s : GrowableBitMap) : Nat :=
  (s.bits.map countOnesU8).sum

/-- `GrowableBitMap::capacity` (in bits). -/
def capacity (s : GrowableBitMap) : Nat :=
  s.cap * BITS_BY_STORAGE

/-- `GrowableBitMap::shrink_to_fit`: drop the trailing all-zero words, then
shrink the vector's capacity to its length (exact-allocation model). -/
def shrink_to_fit (s : GrowableBitMap) : GrowableBitMap :=
  let last_set_bit_index := (s.bits.reverse.dropWhile (fun w => w == 0)).length
  let bits := s.bits.take last_set_bit_index
  { bits := bits, cap := bits.length }

/-- The derived `PartialEq`: compares the single field `bits` element for
element (`Vec` equality ignores capacity). -/
def beqPhys (s t : GrowableBitMap) : Bool :=
  s.bits == t.bits

/-- All words fit in a `u8`; holds for every state the crate can construct. -/
def WordsWf (s : GrowableBitMap) : Prop :=
  ∀ w ∈ s.bits, w < 256

instance (s : GrowableBitMap) : Decidable (WordsWf s) := by
  unfold WordsWf; infer_instance

/-- States reachable through the crate's public constructors and mutators. -/
inductive Reachable : GrowableBitMap → Prop
  | init : Reachable new
  | withCap (c : Nat) : Reachable (with_capacity c)
  | setB (s : GrowableBitMap) (i : Nat) : Reachable s → Reachable (set_bit s i).2
  | clearB (s : GrowableBitMap) (i : Nat) : Reachable s → Reachable (clear_bit s i).2
  | clearAll (s : GrowableBitMap) : Reachable s → Reachable (clear s)
  | shrink (s : GrowableBitMap) : Reachable s → Reachable (shrink_to_fit s)

/-! ### List and bit-arithmetic helper lemmas -/

theorem getD_oob (l : List Nat) (j : Nat) (h : l.length ≤ j) : l.getD j 0 = 0 := by
  simp [List.getD, List.getElem?_eq_none, h]

theorem getD_append_lt (l l2 : List Nat) (j : Nat) (h : j < l.length) :
    (l ++ l2).getD j 0 = l.getD j 0 := by
  simp [List.getD, List.getElem?_append, h]

theorem getD_append_ge (l l2 : List Nat) (j : Nat) (h : l.length ≤ j) :
    (l ++ l2).getD j 0 = l2.getD (j - l.length) 0 := by
  simp [List.getD, List.getElem?_append, Nat.not_lt_of_le h]

theorem getD_replicate_zero (k j : Nat) : (List.replicate k (0 : Nat)).getD j 0 = 0 := by
  simp [List.getD]

theorem getD_set_ne (l : List Nat) (n j a : Nat) (h : n ≠ j) :
    (l.set n a).getD j 0 = l.getD j 0 := by
  simp [List.getD, List.getElem?_set_ne h]

theorem getD_set_self (l : List Nat) (j a : Nat) (h : j < l.length) :
    (l.set j a).getD j 0 = a := by
  simp [List.getD, List.getElem?_set_self, h]

theorem grow_getD (l : List Nat) (k j : Nat) :
    (l ++ List.replicate k (0 : Nat)).getD j 0 = l.getD j 0 := by
  rcases Nat.lt_or_ge j l.length with h | h
  · exact getD_append_lt _ _ _ h
  · rw [getD_append_ge _ _ _ h, getD_replicate_zero, getD_oob _ _ h]

theorem getD_eq_zero_of_all_zero (l : List Nat) (j : Nat) (h : ∀ w ∈ l, w = 0) :
    l.getD j 0 = 0 := by
  rcases Nat.lt_or_ge j l.length with hj | hj
  · have heq : l.getD j 0 = l[j] := by simp [List.getD, List.getElem?_eq_getElem hj]
    rw [heq]
    exact h _ (List.getElem_mem hj)
  · exact getD_oob _ _ hj

theorem getD_lt_bound (l : List Nat) (j m : Nat) (h0 : 0 < m) (h : ∀ w ∈ l, w < m) :
    l.getD j 0 < m := by
  rcases Nat.lt_or_ge j l.length with hj | hj
  · have heq : l.getD j 0 = l[j] := by simp [List.getD, List.getElem?_eq_getElem hj]
    rw [heq]
    exact h _ (List.getElem_mem hj)
  · rw [getD_oob _ _ hj]
    exact h0

theorem mask_eq (i : Nat) : 1 <<< (i - i / 8 * 8) = 2 ^ (i % 8) := by
  rw [Nat.shiftLeft_eq, one_mul]
  have h := Nat.mod_add_div i 8
  congr 1
  omega

theorem and_mask_bne (n k : Nat) : ((n &&& 2 ^ k) != 0) = n.testBit k := by
  rw [Nat.and_two_pow]
  cases h : n.testBit k
  · simp
  · simp [Nat.pos_iff_ne_zero]

theorem compl_mask_testBit (k m : Nat) (hm : m < 8) (hne : m ≠ k) :
    (2 ^ k ^^^ 255).testBit m = true := by
  have h255 : (255 : Nat) = 2 ^ 8 - 1 := by norm_num
  rw [h255, Nat.testBit_xor, Nat.testBit_two_pow_of_ne (fun hh => hne hh.symm),
    Nat.testBit_two_pow_sub_one]
  simp [hm]

theorem compl_mask_testBit_self (k : Nat) (hk : k < 8) :
    (2 ^ k ^^^ 255).testBit k = false := by
  have h255 : (255 : Nat) = 2 ^ 8 - 1 := by norm_num
  rw [h255, Nat.testBit_xor, Nat.testBit_two_pow_self, Nat.testBit_two_pow_sub_one]
  simp [hk]

/-! ### Characterizations of the operations -/

theorem get_bit_eq_testBit (s : GrowableBitMap) (i : Nat) :
    get_bit s i = (s.bits.getD (i / 8) 0).testBit (i % 8) := by
  have h : get_bit s i =
      if s.bits.length ≤ i / 8 then false
      else ((s.bits.getD (i / 8) 0 &&& 1 <<< (i - i / 8 * 8)) != 0) := rfl
  rw [h]
  split
  · next hle => rw [getD_oob _ _ hle, Nat.zero_testBit]
  · rw [mask_eq, and_mask_bne]

theorem grown_getD (s : GrowableBitMap) (i j : Nat) :
    (if s.bits.length ≤ i / 8 then resize s.bits (i / 8 + 1) 0 else s.bits).getD j 0
      = s.bits.getD j 0 := by
  split
  · next h =>
    unfold resize
    rw [if_pos (by omega)]
    exact grow_getD _ _ _
  · rfl

theorem grown_length (s : GrowableBitMap) (i : Nat) :
    (if s.bits.length ≤ i / 8 then resize s.bits (i / 8 + 1) 0 else s.bits).length
      = max s.bits.length (i / 8 + 1) := by
  split
  · next h =>
    unfold resize
    rw [if_pos (by omega), List.length_append, List.length_replicate,
      Nat.max_eq_right (by omega)]
    omega
  · next h => rw [Nat.max_eq_left (by omega)]

theorem set_bit_bits_getD (s : GrowableBitMap) (i j : Nat) :
    (set_bit s i).2.bits.getD j 0 =
      if j = i / 8 then s.bits.getD j 0 ||| 2 ^ (i % 8) else s.bits.getD j 0 := by
  have hb : (set_bit s i).2.bits =
      (if s.bits.length ≤ i / 8 then resize s.bits (i / 8 + 1) 0 else s.bits).set (i / 8)
        ((if s.bits.length ≤ i / 8 then resize s.bits (i / 8 + 1) 0 else s.bits).getD (i / 8) 0
          ||| 1 <<< (i - i / 8 * 8)) := rfl
  rw [hb, mask_eq, grown_getD]
  by_cases hj : j = i / 8
  · subst hj
    rw [if_pos rfl, getD_set_self]
    rw [grown_length]
    omega
  · rw [if_neg hj, getD_set_ne _ _ _ _ (fun hh => hj hh.symm)]
    exact grown_getD s i j

theorem set_bit_bits_length (s : GrowableBitMap) (i : Nat) :
    (set_bit s i).2.bits.length = max s.bits.length (i / 8 + 1) := by
  have hb : (set_bit s i).2.bits =
      (if s.bits.length ≤ i / 8 then resize s.bits (i / 8 + 1) 0 else s.bits).set (i / 8)
        ((if s.bits.length ≤ i / 8 then resize s.bits (i / 8 + 1) 0 else s.bits).getD (i / 8) 0
          ||| 1 <<< (i - i / 8 * 8)) := rfl
  rw [hb, List.length_set, grown_length]

theorem set_bit_fst (s : GrowableBitMap) (i : Nat) :
    (set_bit s i).1 = !(get_bit s i) := by
  have hb : (set_bit s i).1 =
      ((if s.bits.length ≤ i / 8 then resize s.bits (i / 8 + 1) 0 else s.bits).getD (i / 8) 0
        &&& 1 <<< (i - i / 8 * 8) == 0) := rfl
  rw [hb, mask_eq, grown_getD, get_bit_eq_testBit, ← and_mask_bne]
  simp [bne]

theorem clear_bit_state_oob (s : GrowableBitMap) (i : Nat) (hlen : s.bits.length ≤ i / 8) :
    (clear_bit s i).2 = s := by
  simp only [clear_bit, BITS_BY_STORAGE]
  rw [if_pos hlen]

theorem clear_bit_bits_in (s : GrowableBitMap) (i : Nat) (hlen : ¬ s.bits.length ≤ i / 8) :
    (clear_bit s i).2.bits =
      s.bits.set (i / 8)
        (s.bits.getD (i / 8) 0 &&& ((1 <<< (i - i / 8 * 8)) ^^^ 255)) := by
  simp only [clear_bit, BITS_BY_STORAGE, BITS_IN_BYTE]
  rw [if_neg hlen]

theorem clear_bit_bits_getD (s : GrowableBitMap) (i j : Nat) :
    (clear_bit s i).2.bits.getD j 0 =
      if j = i / 8 ∧ i / 8 < s.bits.length
        then s.bits.getD j 0 &&& (2 ^ (i % 8) ^^^ 255)
        else s.bits.getD j 0 := by
  by_cases hlen : s.bits.length ≤ i / 8
  · rw [clear_bit_state_oob s i hlen, if_neg (by omega)]
  · rw [clear_bit_bits_in s i hlen, mask_eq]
    by_cases hj : j = i / 8
    · subst hj
      rw [if_pos ⟨rfl, by omega⟩, getD_set_self _ _ _ (by omega)]
    · rw [if_neg (fun hh => hj hh.1), getD_set_ne _ _ _ _ (fun hh => hj hh.symm)]

theorem clear_bit_bits_length (s : GrowableBitMap) (i : Nat) :
    (clear_bit s i).2.bits.length = s.bits.length := by
  by_cases hlen : s.bits.length ≤ i / 8
  · rw [clear_bit_state_oob s i hlen]
  · rw [clear_bit_bits_in s i hlen, List.length_set]

theorem shrink_getD (s : GrowableBitMap) (j : Nat) :
    (shrink_to_fit s).bits.getD j 0 = s.bits.getD j 0 := by
  have hb : (shrink_to_fit s).bits =
      s.bits.take (s.bits.reverse.dropWhile (fun w => w == 0)).length := rfl
  rw [hb]
  have hsplit : (s.bits.reverse.dropWhile (fun w => w == 0)).reverse ++
      (s.bits.reverse.takeWhile (fun w => w == 0)).reverse = s.bits := by
    have h := congrArg List.reverse
      (List.takeWhile_append_dropWhile (fun w => w == 0) s.bits.reverse)
    rw [List.reverse_append, List.reverse_reverse] at h
    exact h
  rcases Nat.lt_or_ge j (s.bits.reverse.dropWhile (fun w => w == 0)).length with hj | hj
  · simp [List.getD, List.getElem?_take, hj]
  · rw [getD_oob _ _ (by simp [List.length_take]; omega)]
    symm
    conv_lhs => rw [← hsplit]
    rw [getD_append_ge _ _ _ (by simp [List.length_reverse]; omega)]
    exact getD_eq_zero_of_all_zero _ _ (fun w hw => by
      rw [List.mem_reverse] at hw
      simpa using List.mem_takeWhile_imp hw)

theorem shrink_get_bit (s : GrowableBitMap) (i : Nat) :
    get_bit (shrink_to_fit s) i = get_bit s i := by
  rw [get_bit_eq_testBit, get_bit_eq_testBit, shrink_getD]

/-! ### The word-size invariant is preserved by every operation -/

theorem wordsWf_set_bit (s : GrowableBitMap) (i : Nat) (h : WordsWf s) :
    WordsWf (set_bit s i).2 := by
  intro w hw
  have hb : (set_bit s i).2.bits =
      (if s.bits.length ≤ i / 8 then resize s.bits (i / 8 + 1) 0 else s.bits).set (i / 8)
        ((if s.bits.length ≤ i / 8 then resize s.bits (i / 8 + 1) 0 else s.bits).getD (i / 8) 0
          ||| 1 <<< (i - i / 8 * 8)) := rfl
  rw [hb] at hw
  have hg : ∀ v ∈ (if s.bits.length ≤ i / 8 then resize s.bits (i / 8 + 1) 0 else s.bits),
      v < 256 := by
    intro v hv
    split at hv
    · next hc =>
      unfold resize at hv
      rw [if_pos (by omega)] at hv
      rcases List.mem_append.1 hv with hv | hv
      · exact h v hv
      · rw [List.eq_of_mem_replicate hv]
        decide
    · exact h v hv
  rcases List.mem_or_eq_of_mem_set hw with hw | hw
  · exact hg w hw
  · subst hw
    rw [mask_eq]
    have h256 : (256 : Nat) = 2 ^ 8 := by norm_num
    rw [h256]
    exact Nat.or_lt_two_pow (by rw [← h256]; exact getD_lt_bound _ _ _ (by decide) hg)
      (Nat.pow_lt_pow_right (by decide) (Nat.mod_lt i (by decide)))

theorem wordsWf_clear_bit (s : GrowableBitMap) (i : Nat) (h : WordsWf s) :
    WordsWf (clear_bit s i).2 := by
  intro w hw
  by_cases hlen : s.bits.length ≤ i / 8
  · rw [clear_bit_state_oob s i hlen] at hw
    exact h w hw
  · rw [clear_bit_bits_in s i hlen] at hw
    rcases List.mem_or_eq_of_mem_set hw with hw | hw
    · exact h w hw
    · subst hw
      exact Nat.lt_of_le_of_lt Nat.and_le_left (getD_lt_bound _ _ _ (by decide) h)

theorem with_capacity_bits (c : Nat) : (with_capacity c).bits = [] := by
  unfold with_capacity
  split <;> rfl

theorem reachable_wordsWf (s : GrowableBitMap) (h : Reachable s) : WordsWf s := by
  induction h with
  | init => intro w hw; simp [new] at hw
  | withCap c =>
    intro w hw
    rw [with_capacity_bits] at hw
    simp at hw
  | setB s i _ ih => exact wordsWf_set_bit s i ih
  | clearB s i _ ih => exact wordsWf_clear_bit s i ih
  | clearAll s _ ih => intro w hw; simp [clear] at hw
  | shrink s _ ih =>
    intro w hw
    have hb : (shrink_to_fit s).bits =
        s.bits.take (s.bits.reverse.dropWhile (fun v => v == 0)).length := rfl
    rw [hb] at hw
    exact ih w (List.take_subset _ _ hw)

/-! ### Population count and emptiness -/

theorem countOnesU8_eq_countP (w : Nat) :
    countOnesU8 w = (List.range 8).countP (fun k => w.testBit k) := by
  simp [countOnesU8, List.countP_eq_length_filter]

theorem countOnesU8_eq_zero_iff (w : Nat) (hw : w < 256) :
    countOnesU8 w = 0 ↔ w = 0 := by
  constructor
  · intro h
    apply Nat.zero_of_testBit_eq_false
    intro k
    rcases Nat.lt_or_ge k 8 with hk | hk
    · by_contra hb
      rw [Bool.not_eq_false] at hb
      have hmem : k ∈ (List.range 8).filter (fun k => w.testBit k) := by
        rw [List.mem_filter, List.mem_range]
        exact ⟨hk, hb⟩
      rw [countOnesU8, List.length_eq_zero] at h
      rw [h] at hmem
      simp at hmem
    · apply Nat.testBit_lt_two_pow
      calc w < 256 := hw
        _ = 2 ^ 8 := by norm_num
        _ ≤ 2 ^ k := Nat.pow_le_pow_right (by decide) hk
  · intro h
    subst h
    rw [countOnesU8]
    simp [Nat.zero_testBit]

theorem sum_countOnes_eq (l : List Nat) :
    (l.map countOnesU8).sum =
      (List.range (8 * l.length)).countP
        (fun i => (l.getD (i / 8) 0).testBit (i % 8)) := by
  induction l with
  | nil => rfl
  | cons w t ih =>
    have hsplit : List.range (8 * (w :: t).length) =
        List.range 8 ++ (List.range (8 * t.length)).map (8 + ·) := by
      rw [List.length_cons, show 8 * (t.length + 1) = 8 + 8 * t.length by ring]
      exact List.range_add 8 (8 * t.length)
    rw [List.map_cons, List.sum_cons, hsplit, List.countP_append, List.countP_map]
    congr 1
    · rw [countOnesU8_eq_countP]
      apply List.countP_congr
      intro a ha
      rw [List.mem_range] at ha
      show w.testBit a = true ↔ ((w :: t).getD (a / 8) 0).testBit (a % 8) = true
      rw [Nat.div_eq_of_lt ha, Nat.mod_eq_of_lt ha, List.getD_cons_zero]
    · rw [ih]
      apply List.countP_congr
      intro a ha
      show (t.getD (a / 8) 0).testBit (a % 8) = true ↔
        ((w :: t).getD ((8 + a) / 8) 0).testBit ((8 + a) % 8) = true
      have h1 : (8 + a) / 8 = a / 8 + 1 := by omega
      have h2 : (8 + a) % 8 = a % 8 := Nat.add_mod_left 8 a
      rw [h1, h2, List.getD_cons_succ]

theorem is_empty_iff (s : GrowableBitMap) (h : WordsWf s) :
    (is_empty s = true ↔ count_ones s = 0) ∧
    (is_empty s = true ↔ (s.bits.length = 0 ∨ ∀ w ∈ s.bits, w = 0)) := by
  have hemp : is_empty s = true ↔ (s.bits.length = 0 ∨ ∀ w ∈ s.bits, w = 0) := by
    rw [is_empty]
    simp [List.isEmpty_iff, List.all_eq_true, List.length_eq_zero]
  refine ⟨?_, hemp⟩
  rw [hemp, count_ones, List.sum_eq_zero_iff]
  constructor
  · intro hcase x hx
    rw [List.mem_map] at hx
    obtain ⟨w, hw, rfl⟩ := hx
    rcases hcase with hlen | hall
    · rw [List.length_eq_zero] at hlen
      rw [hlen] at hw
      simp at hw
    · rw [hall w hw, countOnesU8]
      simp [Nat.zero_testBit]
  · intro hall
    right
    intro w hw
    have hz := hall (countOnesU8 w) (List.mem_map.2 ⟨w, hw, rfl⟩)
    exact (countOnesU8_eq_zero_iff w (h w hw)).1 hz

/-! ### Claim theorems -/

/-- C1: the claim says `clear_bit(i)` returns true iff bit `i` was previously 1.
The source computes `prev = *elem | !mask` instead of `*elem & mask`, and
`!mask` is never zero for a `u8`, so `clear_bit` returns true for every
in-range index even when the bit was already 0: after `set_bit(0)` and
`clear_bit(0)`, bit 0 reads as 0, yet a second `clear_bit(0)` still
returns true. -/
theorem clear_bit_return_bug :
    get_bit (clear_bit (set_bit new 0).2 0).2 0 = false ∧
    (clear_bit (clear_bit (set_bit new 0).2 0).2 0).1 = true := by decide

/-- C2: `set_bit(i)` sets bit `i` (so `get_bit(i)` is true immediately
afterwards) and returns true iff the bit's prior value was 0; growth is
handled by the zero-filling `resize`. -/
theorem set_bit_spec (s : GrowableBitMap) (i : Nat) :
    get_bit (set_bit s i).2 i = true ∧
    ((set_bit s i).1 = true ↔ get_bit s i = false) := by
  constructor
  · rw [get_bit_eq_testBit, set_bit_bits_getD, if_pos rfl, Nat.testBit_or,
      Nat.testBit_two_pow_self, Bool.or_true]
  · rw [set_bit_fst]
    cases h : get_bit s i <;> simp [h]

/-- C3: setting or clearing bit `i` leaves `get_bit(j)` unchanged for every
`j ≠ i`. -/
theorem non_interference (s : GrowableBitMap) (i j : Nat) (h : j ≠ i) :
    get_bit (set_bit s i).2 j = get_bit s j ∧
    get_bit (clear_bit s i).2 j = get_bit s j := by
  have hdm : i % 8 + 8 * (i / 8) = i := Nat.mod_add_div i 8
  have hdm2 : j % 8 + 8 * (j / 8) = j := Nat.mod_add_div j 8
  have hmod8 : j % 8 < 8 := Nat.mod_lt j (by decide)
  constructor
  · rw [get_bit_eq_testBit, get_bit_eq_testBit, set_bit_bits_getD]
    by_cases hj : j / 8 = i / 8
    · rw [if_pos hj, Nat.testBit_or, Nat.testBit_two_pow_of_ne (by omega), Bool.or_false]
    · rw [if_neg hj]
  · rw [get_bit_eq_testBit, get_bit_eq_testBit, clear_bit_bits_getD]
    by_cases hj : j / 8 = i / 8 ∧ i / 8 < s.bits.length
    · rw [if_pos hj, Nat.testBit_and, compl_mask_testBit _ _ hmod8 (by omega), Bool.and_true]
    · rw [if_neg hj]

theorem non_interference_witness :
    get_bit (set_bit ⟨[3], 1⟩ 0).2 1 = get_bit ⟨[3], 1⟩ 1 ∧
    get_bit (clear_bit ⟨[3], 1⟩ 0).2 1 = get_bit ⟨[3], 1⟩ 1 :=
  non_interference ⟨[3], 1⟩ 0 1 (by decide)

/-- C4: on every reachable state, `is_empty()` is true iff
`count_ones() == 0`, and `is_empty()` is true iff the word sequence has zero
length or every stored word equals zero. -/
theorem emptiness_equiv (s : GrowableBitMap) (h : Reachable s) :
    (is_empty s = true ↔ count_ones s = 0) ∧
    (is_empty s = true ↔ (s.bits.length = 0 ∨ ∀ w ∈ s.bits, w = 0)) :=
  is_empty_iff s (reachable_wordsWf s h)

theorem emptiness_equiv_witness :
    is_empty (set_bit new 3).2 = false ∧
    (is_empty (set_bit new 3).2 = true ↔ count_ones (set_bit new 3).2 = 0) :=
  ⟨by decide, (emptiness_equiv (set_bit new 3).2 (Reachable.setB new 3 Reachable.init)).1⟩

/-- C5: `count_ones()` equals the number of indices at which `get_bit`
returns true: all such indices lie below `8 * length`, and on that range the
count of true `get_bit` values is exactly `count_ones()`. -/
theorem count_ones_spec (s : GrowableBitMap) :
    count_ones s =
      ((List.range (8 * s.bits.length)).filter (fun i => get_bit s i)).length ∧
    ∀ i, 8 * s.bits.length ≤ i → get_bit s i = false := by
  constructor
  · rw [count_ones, sum_countOnes_eq, ← List.countP_eq_length_filter]
    apply List.countP_congr
    intro a ha
    show (s.bits.getD (a / 8) 0).testBit (a % 8) = true ↔ get_bit s a = true
    rw [get_bit_eq_testBit]
  · intro i hi
    have hlen : s.bits.length ≤ i / 8 := (Nat.le_div_iff_mul_le (by decide)).mpr (by omega)
    rw [get_bit_eq_testBit, getD_oob _ _ hlen, Nat.zero_testBit]

theorem count_ones_spec_witness :
    count_ones ⟨[5, 3], 2⟩ =
      ((List.range (8 * (⟨[5, 3], 2⟩ : GrowableBitMap).bits.length)).filter
        (fun i => get_bit ⟨[5, 3], 2⟩ i)).length ∧
    get_bit ⟨[5, 3], 2⟩ 100 = false :=
  ⟨(count_ones_spec ⟨[5, 3], 2⟩).1, (count_ones_spec ⟨[5, 3], 2⟩).2 100 (by decide)⟩

/-- C6: `shrink_to_fit` truncates exactly the trailing run of all-zero words
(the length drops by the trailing-zero count and by nothing else), leaving
every `get_bit` unchanged; with word width 8, after setting bits 63 and 127,
clearing 127 and shrinking, `capacity()` is 64 and bit 63 is still set. -/
theorem shrink_to_fit_spec (s : GrowableBitMap) :
    (∀ i, get_bit (shrink_to_fit s) i = get_bit s i) ∧
    (shrink_to_fit s).bits.length =
      s.bits.length - (s.bits.reverse.takeWhile (fun w => w == 0)).length ∧
    (capacity (shrink_to_fit (clear_bit (set_bit (set_bit new 63).2 127).2 127).2) = 64 ∧
      get_bit (shrink_to_fit (clear_bit (set_bit (set_bit new 63).2 127).2 127).2) 63
        = true) := by
  refine ⟨fun i => shrink_get_bit s i, ?_, by decide⟩
  have hb : (shrink_to_fit s).bits =
      s.bits.take (s.bits.reverse.dropWhile (fun w => w == 0)).length := rfl
  have hsum : (s.bits.reverse.takeWhile (fun w => w == 0)).length +
      (s.bits.reverse.dropWhile (fun w => w == 0)).length = s.bits.length := by
    have h := congrArg List.length
      (List.takeWhile_append_dropWhile (fun w => w == 0) s.bits.reverse)
    rw [List.length_append, List.length_reverse] at h
    exact h
  rw [hb, List.length_take]
  omega

/-- C7: for `capacity_bits > 0`, `with_capacity` yields the smallest multiple
of 8 that is at least `capacity_bits` (under the exact-allocation
assumption), and `with_capacity 0` is exactly `new`. -/
theorem with_capacity_spec (c : Nat) :
    (0 < c → capacity (with_capacity c) % 8 = 0 ∧ c ≤ capacity (with_capacity c) ∧
      ∀ m, m % 8 = 0 → c ≤ m → capacity (with_capacity c) ≤ m) ∧
    with_capacity 0 = new := by
  refine ⟨fun hc => ?_, by decide⟩
  have h0 : ¬ ((c == 0) = true) := by simp; omega
  have hcap : capacity (with_capacity c) =
      (c / 8 + if (c % 8 != 0) = true then 1 else 0) * 8 := by
    unfold with_capacity
    rw [if_neg h0]
    rfl
  rw [hcap]
  rcases eq_or_ne (c % 8) 0 with h8 | h8
  · rw [if_neg (by simp [h8])]
    exact ⟨by omega, by omega, fun m hm hcm => by omega⟩
  · rw [if_pos (by simp [h8])]
    exact ⟨by omega, by omega, fun m hm hcm => by omega⟩

theorem with_capacity_spec_witness :
    capacity (with_capacity 125) % 8 = 0 ∧ 125 ≤ capacity (with_capacity 125) ∧
    capacity (with_capacity 125) ≤ 128 ∧ with_capacity 0 = new :=
  ⟨((with_capacity_spec 125).1 (by decide)).1,
   ((with_capacity_spec 125).1 (by decide)).2.1,
   ((with_capacity_spec 125).1 (by decide)).2.2 128 (by decide) (by decide),
   (with_capacity_spec 0).2⟩

/-- C8: whenever the word index `i / 8` is at or beyond the storage length,
`get_bit(i)` returns false, and on a fresh empty bitmap `get_bit` returns
false for every index. -/
theorem get_bit_out_of_range (s : GrowableBitMap) (i : Nat) :
    (s.bits.length ≤ i / 8 → get_bit s i = false) ∧ get_bit new i = false := by
  constructor
  · intro h
    rw [get_bit_eq_testBit, getD_oob _ _ h, Nat.zero_testBit]
  · rw [get_bit_eq_testBit, getD_oob _ _ (Nat.zero_le _), Nat.zero_testBit]

theorem get_bit_out_of_range_witness :
    get_bit ⟨[255], 1⟩ 10000000 = false ∧ get_bit new 10000000 = false :=
  ⟨(get_bit_out_of_range ⟨[255], 1⟩ 10000000).1 (by decide),
   (get_bit_out_of_range ⟨[255], 1⟩ 10000000).2⟩

/-- C9: the derived equality compares the word sequences element for element,
so a bitmap with a trailing zero word and its shrunk version have identical
`get_bit` values at every index yet compare unequal. -/
theorem physical_equality (s t : GrowableBitMap) :
    (beqPhys s t = true ↔ s.bits = t.bits) ∧
    (∀ i, get_bit (clear_bit (set_bit (set_bit new 0).2 8).2 8).2 i =
        get_bit (shrink_to_fit (clear_bit (set_bit (set_bit new 0).2 8).2 8).2) i) ∧
    beqPhys (clear_bit (set_bit (set_bit new 0).2 8).2 8).2
      (shrink_to_fit (clear_bit (set_bit (set_bit new 0).2 8).2 8).2) = false := by
  refine ⟨?_, fun i => (shrink_get_bit _ i).symm, by decide⟩
  rw [beqPhys]
  exact beq_iff_eq

/-- C10: after `set_bit(i)` the word-sequence length is exactly
`max(previous length, i / 8 + 1)`, and when growth occurs the `resize` step
extends the sequence to exactly `i / 8 + 1` words with every newly created
word equal to zero (bit `i` is then set inside the last of them). -/
theorem set_bit_growth (s : GrowableBitMap) (i : Nat) :
    (set_bit s i).2.bits.length = max s.bits.length (i / 8 + 1) ∧
    (s.bits.length ≤ i / 8 →
      (resize s.bits (i / 8 + 1) 0).length = i / 8 + 1 ∧
      ∀ j, s.bits.length ≤ j → (resize s.bits (i / 8 + 1) 0).getD j 0 = 0) := by
  refine ⟨set_bit_bits_length s i, fun hlen => ⟨?_, fun j hj => ?_⟩⟩
  · unfold resize
    rw [if_pos (by omega), List.length_append, List.length_replicate]
    omega
  · unfold resize
    rw [if_pos (by omega), getD_append_ge _ _ _ hj, getD_replicate_zero]

theorem set_bit_growth_witness :
    (set_bit new 9).2.bits.length = max new.bits.length (9 / 8 + 1) ∧
    (resize new.bits (9 / 8 + 1) 0).length = 9 / 8 + 1 ∧
    (resize new.bits (9 / 8 + 1) 0).getD 0 0 = 0 ∧
    (set_bit new 9).2.bits.length = 2 :=
  ⟨(set_bit_growth new 9).1,
   ((set_bit_growth new 9).2 (by decide)).1,
   ((set_bit_growth new 9).2 (by decide)).2 0 (by decide),
   by decide⟩

end GrowableBitMap
